import Mathlib

/-!
Verification development for the Skald MUD client's core engines:
the rule registries (triggers, aliases, timers), the alias expansion
path in App.send_to_mud, the event dispatcher, the Telnet parser,
and the mapper's room graph.  Each definition is a shallow embedding
of the corresponding Python code; regular-expression compilation and
matching are abstracted as injected functions, since the source defers
them to Python's re module.
-/

namespace Skald

/-! ## Rule registries (core/managers/trigger_manager.py, core/alias_manager.py)

A trigger's compiled pattern is modelled as a function returning an
optional match object of abstract type M (trig.pattern.search); its
action, a user code object executed on match, is modelled as a function
that either returns or raises an exception of abstract type E. -/

structure TriggerRule (M E : Type) where
  priority : Int
  name : String
  regex : String
  pattern : String → Option M
  action : M → Except E Unit
  enabled : Bool
  gag : Bool

/-- Python list.sort() compares TriggerData with Trigger.__lt__, which is
`self.priority < other.priority`, and is stable; its result is modelled by
the canonical stable ascending sort (insertion sort) under the
non-strict relation `a.priority ≤ b.priority`. -/
def trigR {M E : Type} (a b : TriggerRule M E) : Prop :=
  a.priority ≤ b.priority

instance {M E : Type} : DecidableRel (trigR (M := M) (E := E)) :=
  fun a b => Int.decLe a.priority b.priority

/-- TriggerManager.add_trigger: drop any rule of the same name, append the
new rule, then sort the list in place (stable, using Trigger.__lt__). -/
def addTrigger {M E : Type} (ts : List (TriggerRule M E)) (t : TriggerRule M E) :
    List (TriggerRule M E) :=
  ((ts.filter (fun x => x.name != t.name)) ++ [t]).insertionSort trigR

/-- The scan inside TriggerManager.check_triggers: skip disabled rules,
return the first enabled rule whose pattern search succeeds, with its match. -/
def firstEnabledMatch {M E : Type} (ts : List (TriggerRule M E)) (text : String) :
    Option (TriggerRule M E × M) :=
  match ts with
  | [] => none
  | t :: rest =>
    if t.enabled then
      match t.pattern text with
      | some m => some (t, m)
      | none => firstEnabledMatch rest text
    else firstEnabledMatch rest text

/-- TriggerManager.check_triggers: fire the first enabled matching trigger's
action and return its gag flag; False when nothing matches.  The result is
the list of action invocations (by rule name) paired with the returned
value, where an exception raised by the action propagates (the source has
no try/except around trig.action). -/
def checkTriggers {M E : Type} (ts : List (TriggerRule M E)) (text : String) :
    List String × Except E Bool :=
  match firstEnabledMatch ts text with
  | none => ([], .ok false)
  | some (t, m) => ([t.name], (t.action m).map (fun _ => t.gag))

/-- An in-memory alias entry is the tuple (priority, compiled_pattern,
action_fn) kept by AliasManager._aliases.  The pattern models
compiled.match (anchored); the action is modelled by the list of texts it
passes to ctx.send when executed. -/
abbrev AliasEntry (M : Type) := Int × (String → Option M) × (M → List String)

/-- AliasManager.register_alias sorts with key=lambda x: -x[0], i.e. a
stable ascending sort on the negated priority. -/
def aliasR {M : Type} (a b : AliasEntry M) : Prop :=
  -a.1 ≤ -b.1

instance {M : Type} : DecidableRel (aliasR (M := M)) :=
  fun a b => Int.decLe (-a.1) (-b.1)

/-- AliasManager.register_alias: append the new tuple, then stable-sort so
the highest priority comes first. -/
def registerAlias {M : Type} (as : List (AliasEntry M)) (e : AliasEntry M) :
    List (AliasEntry M) :=
  (as ++ [e]).insertionSort aliasR

/-- The scan inside AliasManager.process: first entry whose pattern matches
the line (anchored), with its match.  No enabled flag exists in memory;
only enabled aliases are ever loaded. -/
def aliasFirstMatch {M : Type} (as : List (AliasEntry M)) (line : String) :
    Option (AliasEntry M × M) :=
  match as with
  | [] => none
  | e :: rest =>
    match e.2.1 line with
    | some m => some (e, m)
    | none => aliasFirstMatch rest line

/-- AliasManager.process: run the first matching alias's action and report
True (modelled as some, carrying the texts the action sends); none models
the False return when no alias matches. -/
def aliasProcess {M : Type} (as : List (AliasEntry M)) (line : String) :
    Option (List String) :=
  (aliasFirstMatch as line).map (fun p => p.1.2.2 p.2)

/-- App.send_to_mud on an open connection: let aliases run first; if one
handled the text, each text its action passed to ctx.send re-enters
send_to_mud; otherwise transmit the raw text.  The source has no depth
counter, so the recursion is unbounded; the Nat argument is recursion fuel
standing in for the host's call stack.  Returns the number of alias
expansions performed and the list of texts actually transmitted. -/
def sendToMud {M : Type} (as : List (AliasEntry M)) : Nat → String → Nat × List String
  | 0, _ => (0, [])
  | n + 1, text =>
    match aliasProcess as text with
    | none => (0, [text])
    | some outs =>
      outs.foldl (fun acc s =>
        let r := sendToMud as n s
        (acc.1 + r.1, acc.2 ++ r.2)) (1, [])

/-- App.fire_event: call every handler registered under the event name,
swallowing (without logging) any exception a handler raises.  Returns, per
handler, the swallowed exception if one occurred. -/
def fireEvent {A E : Type} (handlers : List (String × (A → Except E Unit))) (arg : A) :
    List (String × Option E) :=
  handlers.map (fun h => (h.1, match h.2 arg with
    | .ok _ => none
    | .error e => some e))

/-! ## Bulk load from persisted records (the _load_all_from_db methods)

A persisted Script row.  Regex compilation is abstracted as an injected
function cmp (re.compile), which either yields a matcher or raises
re.error; compilation of the Python code body into the action is modelled
as total, the claims under study concerning only pattern compilation. -/

structure ScriptRec where
  name : String
  category : String
  pattern : Option String
  interval : Option Int
  code : String
  enabled : Bool
  priority : Int
  gag : Bool
deriving DecidableEq, Repr

/-- AliasManager._load_all_from_db: for every enabled alias record, try
re.compile(rec.pattern or ""); on re.error skip the record silently
(continue); otherwise build the action and register_alias it. -/
def aliasLoadAll {M : Type} (cmp : String → Except Unit (String → Option M))
    (mkAct : ScriptRec → M → List String)
    (recs : List ScriptRec) (acc : List (AliasEntry M)) : List (AliasEntry M) :=
  match recs with
  | [] => acc
  | r :: rest =>
    if r.category == "alias" && r.enabled then
      match cmp (r.pattern.getD "") with
      | .error _ => aliasLoadAll cmp mkAct rest acc
      | .ok p => aliasLoadAll cmp mkAct rest (registerAlias acc (r.priority, p, mkAct r))
    else aliasLoadAll cmp mkAct rest acc

/-- TriggerManager._load_all_from_db: for every enabled trigger record,
compile_and_register calls add_trigger, whose re.compile(regex) is not
wrapped in try/except; a re.error therefore propagates out of the load.
The result pairs the in-memory list at the moment the load stops with
some () when it was aborted by a compile error (records after the bad one
are never processed, mirroring the raised exception). -/
def triggerLoadAll {M E : Type} (cmp : String → Except Unit (String → Option M))
    (mkAct : ScriptRec → M → Except E Unit)
    (recs : List ScriptRec) (acc : List (TriggerRule M E)) :
    List (TriggerRule M E) × Option Unit :=
  match recs with
  | [] => (acc, none)
  | r :: rest =>
    if r.category == "trigger" && r.enabled then
      match cmp (r.pattern.getD "") with
      | .error _ => (acc, some ())
      | .ok p =>
        triggerLoadAll cmp mkAct rest
          (addTrigger acc
            { priority := r.priority
              name := r.name
              regex := r.pattern.getD ""
              pattern := p
              action := mkAct r
              enabled := r.enabled
              gag := r.gag })
    else triggerLoadAll cmp mkAct rest acc

/-- TimerManager._load_all_from_db: every enabled timer record with a
positive interval is registered (_register_timer pops any timer of the
same name, then stores the new one); no pattern is ever compiled. -/
def timerLoadAll (recs : List ScriptRec) (acc : List (String × Int)) :
    List (String × Int) :=
  match recs with
  | [] => acc
  | r :: rest =>
    if r.category == "timer" && r.enabled then
      if r.interval.getD 0 > 0 then
        timerLoadAll rest ((acc.filter (fun p => p.1 != r.name)) ++ [(r.name, r.interval.getD 0)])
      else timerLoadAll rest acc
    else timerLoadAll rest acc

/-! ## Telnet parser (core/telnet.py)

Bytes are modelled as natural numbers (Python bytes iterate as ints
0..255).  The command constants: IAC 255, DONT 254, DO 253, WONT 252,
WILL 251, SB 250, GA 249, SE 240, ATCP2 201. -/

inductive PState where
  | data
  | iac
  | iacCmdOption
  | sbOpt
  | sbData
  | sbDataIac
deriving DecidableEq, Repr

structure ParserState where
  state : PState
  pendCmd : Option Nat
  sbOpt : Option Nat
  sbBuf : List Nat
deriving DecidableEq, Repr

/-- TelnetParser.__init__ parser-state fields. -/
def initParser : ParserState :=
  { state := .data, pendCmd := none, sbOpt := none, sbBuf := [] }

/-- A frame appended to feed's out list ('data' frames carry one byte at
this stage; merged frames reuse the same shape). -/
inductive TFrame where
  | data (bytes : List Nat)
  | neg (cmd : Option Nat) (opt : Nat)
  | sb (opt : Option Nat) (payload : List Nat)
  | ga
deriving DecidableEq, Repr

/-- One iteration of the byte loop in TelnetParser.feed: consume one byte,
yielding the next parser state and the frames appended to out. -/
def stepByte (st : ParserState) (byte : Nat) : ParserState × List TFrame :=
  match st.state with
  | .data =>
    if byte = 255 then ({ st with state := .iac }, [])
    else if byte = 0 then (st, [])
    else (st, [.data [byte]])
  | .iac =>
    if byte = 255 then ({ st with state := .data }, [.data [255]])
    else if byte = 249 then ({ st with state := .data }, [.ga])
    else if byte = 250 then ({ st with state := .sbOpt }, [])
    else if byte = 251 ∨ byte = 252 ∨ byte = 253 ∨ byte = 254 then
      ({ st with pendCmd := some byte, state := .iacCmdOption }, [])
    else ({ st with state := .data }, [])
  | .iacCmdOption =>
    ({ st with pendCmd := none, state := .data }, [.neg st.pendCmd byte])
  | .sbOpt =>
    ({ st with sbOpt := some byte, sbBuf := [], state := .sbData }, [])
  | .sbData =>
    if byte = 255 then ({ st with state := .sbDataIac }, [])
    else
      let buf := st.sbBuf ++ [byte]
      if buf.length > 4096 then ({ st with sbBuf := [], state := .data }, [])
      else ({ st with sbBuf := buf }, [])
  | .sbDataIac =>
    if byte = 240 then ({ st with state := .data }, [.sb st.sbOpt st.sbBuf])
    else if byte = 255 then ({ st with sbBuf := st.sbBuf ++ [255], state := .sbData }, [])
    else ({ st with sbBuf := [], state := .data }, [])

/-- The byte loop of TelnetParser.feed: fold stepByte over the chunk,
accumulating the raw out frames. -/
def feedRaw (st : ParserState) : List Nat → ParserState × List TFrame
  | [] => (st, [])
  | b :: rest =>
    let (st1, fs) := stepByte st b
    let (st2, rest') := feedRaw st1 rest
    (st2, fs ++ rest')

/-- The merge pass of feed: coalesce consecutive data frames into one,
flushing the byte buffer before each non-data frame and at the end. -/
def mergeData (frames : List TFrame) (buffer : List Nat) : List TFrame :=
  match frames with
  | [] => if buffer.isEmpty then [] else [.data buffer]
  | .data bs :: rest => mergeData rest (buffer ++ bs)
  | f :: rest =>
    if buffer.isEmpty then f :: mergeData rest []
    else .data buffer :: f :: mergeData rest []

/-- First replace of the newline normalization:
data_bytes.replace(b13 b10, b10). -/
def replaceCrLf : List Nat → List Nat
  | 13 :: 10 :: rest => 10 :: replaceCrLf rest
  | b :: rest => b :: replaceCrLf rest
  | [] => []

/-- Second replace: .replace(b13, b10). -/
def replaceCr (bs : List Nat) : List Nat :=
  bs.map (fun b => if b = 13 then 10 else b)

/-- cleaned = data_bytes.replace(b13 b10, b10).replace(b13, b10). -/
def normalizeNewlines (bs : List Nat) : List Nat :=
  replaceCr (replaceCrLf bs)

/-- Strict UTF-8 decoding of a byte list, as bytes.decode("utf-8") with
errors="strict": rejects stray continuation bytes, overlong encodings,
surrogate code points and code points above 0x10FFFF.  The Nat argument
is structural fuel; each step consumes at least one byte, so any fuel of
at least the list length gives the decoder's actual answer. -/
def utf8DecodeFuel : Nat → List Nat → Option (List Char)
  | _, [] => some []
  | 0, _ :: _ => none
  | f + 1, b :: rest =>
    if b < 0x80 then
      (utf8DecodeFuel f rest).map (fun cs => Char.ofNat b :: cs)
    else if b < 0xC2 then none
    else if b < 0xE0 then
      match rest with
      | c1 :: rest1 =>
        if 0x80 ≤ c1 ∧ c1 < 0xC0 then
          let cp := (b - 0xC0) * 0x40 + (c1 - 0x80)
          (utf8DecodeFuel f rest1).map (fun cs => Char.ofNat cp :: cs)
        else none
      | [] => none
    else if b < 0xF0 then
      match rest with
      | c1 :: c2 :: rest2 =>
        if 0x80 ≤ c1 ∧ c1 < 0xC0 ∧ 0x80 ≤ c2 ∧ c2 < 0xC0 then
          let cp := (b - 0xE0) * 0x1000 + (c1 - 0x80) * 0x40 + (c2 - 0x80)
          if cp < 0x800 ∨ (0xD800 ≤ cp ∧ cp ≤ 0xDFFF) then none
          else (utf8DecodeFuel f rest2).map (fun cs => Char.ofNat cp :: cs)
        else none
      | _ => none
    else if b < 0xF5 then
      match rest with
      | c1 :: c2 :: c3 :: rest3 =>
        if 0x80 ≤ c1 ∧ c1 < 0xC0 ∧ 0x80 ≤ c2 ∧ c2 < 0xC0 ∧ 0x80 ≤ c3 ∧ c3 < 0xC0 then
          let cp := (b - 0xF0) * 0x40000 + (c1 - 0x80) * 0x1000 +
            (c2 - 0x80) * 0x40 + (c3 - 0x80)
          if cp < 0x10000 ∨ cp > 0x10FFFF then none
          else (utf8DecodeFuel f rest3).map (fun cs => Char.ofNat cp :: cs)
        else none
      | _ => none
    else none

def utf8Decode (bs : List Nat) : Option (List Char) :=
  utf8DecodeFuel bs.length bs

/-- text.split(" ", 1): the characters before the first space, and, when a
space exists, everything after it. -/
def splitFirstSpace : List Char → List Char × Option (List Char)
  | [] => ([], none)
  | c :: rest =>
    if c = ' ' then ([], some rest)
    else
      let (a, b) := splitFirstSpace rest
      (c :: a, b)

/-- A callback invocation performed by feed (the parser's injected hooks). -/
inductive CBEvent where
  | onData (bytes : List Nat)
  | onNeg (cmd : Nat) (opt : Nat)
  | onGa
  | onGmcp (msg : String) (payload : Option String)
deriving DecidableEq, Repr

/-- The GMCP decode attempted for an ATCP2 subnegotiation payload: UTF-8
decode, split on the first space into the message key and the raw
remainder; a decode failure is swallowed (no callback). -/
def gmcpDecode (payload : List Nat) : List CBEvent :=
  match utf8Decode payload with
  | none => []
  | some cs =>
    let (msg, rest) := splitFirstSpace cs
    [.onGmcp (String.mk msg) (rest.map String.mk)]

/-- The final dispatch loop of feed, applied to one merged frame: the frame
appended to the returned list (none for an unrecognized frame, i.e. a neg
or sb whose stored option is missing) and the callbacks invoked.  Data
frames are newline-normalized first; an sb frame additionally triggers the
GMCP decode when its option is ATCP2 (201). -/
def dispatchFrame (f : TFrame) : Option TFrame × List CBEvent :=
  match f with
  | .data bs =>
    let cleaned := normalizeNewlines bs
    (some (.data cleaned), [.onData cleaned])
  | .neg (some c) opt => (some (.neg (some c) opt), [.onNeg c opt])
  | .neg none _ => (none, [])
  | .sb (some opt) payload =>
    (some (.sb (some opt) payload),
      if opt = 201 then gmcpDecode payload else [])
  | .sb none _ => (none, [])
  | .ga => (some .ga, [.onGa])

/-- TelnetParser.feed: run the byte state machine over the chunk, merge
consecutive data frames, then normalize and dispatch.  Returns the new
parser state, the list of returned frames, and the callbacks invoked in
order. -/
def feed (st : ParserState) (chunk : List Nat) :
    ParserState × List TFrame × List CBEvent :=
  let (st', raws) := feedRaw st chunk
  let merged := mergeData raws []
  (st', merged.filterMap (fun f => (dispatchFrame f).1),
    merged.flatMap (fun f => (dispatchFrame f).2))

/-! ## Room graph (ui/widgets/mapper/map_graph.py, ui/widgets/mapper/room.py)

Nodes are keyed by room hash and hold the Room attributes the graph logic
touches; a none desc/terrain stands for an attribute never assigned.
Edges are undirected with the attribute dict modelled by EdgeAttrs, where
doorOpen = none models the door_open key being absent. -/

def alookup {α β : Type} [BEq α] (l : List (α × β)) (k : α) : Option β :=
  (l.find? (fun p => p.1 == k)).map (fun p => p.2)

structure RoomData where
  desc : Option String
  terrain : Option Int
  links : List (String × String)
deriving DecidableEq, Repr

structure EdgeAttrs where
  border : Bool
  doorOpen : Option Bool
deriving DecidableEq, Repr

structure MapGraph where
  nodes : List (String × RoomData)
  edges : List (String × String × EdgeAttrs)
deriving DecidableEq, Repr

/-- The GMCP room-info record handed to add_or_update_room; a none field
models a key absent from the dict. -/
structure RoomInfo where
  hash : Option String
  short : Option String
  type : Option Int
  links : Option (List (String × String))
deriving DecidableEq, Repr

/-- Whether a stored edge entry is the (undirected) edge between a and b. -/
def edgeMatch (a b : String) (e : String × String × EdgeAttrs) : Bool :=
  (e.1 == a && e.2.1 == b) || (e.1 == b && e.2.1 == a)

/-- The attribute dict of the edge between a and b, if the edge exists. -/
def findEdge (es : List (String × String × EdgeAttrs)) (a b : String) :
    Option EdgeAttrs :=
  (es.find? (edgeMatch a b)).map (fun e => e.2.2)

def hasNode (g : MapGraph) (h : String) : Bool :=
  (alookup g.nodes h).isSome

def getRoom (g : MapGraph) (h : String) : Option RoomData :=
  alookup g.nodes h

/-- networkx add_edge(u, v, **attrs): update the existing edge's dict, or
create the edge.  The attrs passed by connect_rooms always contain border
and contain door_open only when it is not None, so border is always
overwritten and door_open only when supplied. -/
def addEdge (es : List (String × String × EdgeAttrs)) (u v : String)
    (border : Bool) (doorOpen : Option Bool) : List (String × String × EdgeAttrs) :=
  if (es.find? (edgeMatch u v)).isSome then
    es.map (fun e =>
      if edgeMatch u v e then
        (e.1, e.2.1,
          { border := border
            doorOpen := match doorOpen with
              | some d => some d
              | none => e.2.2.doorOpen })
      else e)
  else es ++ [(u, v, { border := border, doorOpen := doorOpen })]

/-- MapGraph.connect_rooms: add or update the edge when both nodes exist. -/
def connectRooms (g : MapGraph) (src dst : String) (border : Bool)
    (doorOpen : Option Bool) : MapGraph :=
  if hasNode g src && hasNode g dst then
    { g with edges := addEdge g.edges src dst border doorOpen }
  else g

/-- MapGraph.set_border: toggle the border flag on an existing edge. -/
def setBorder (g : MapGraph) (a b : String) (border : Bool) : MapGraph :=
  if (findEdge g.edges a b).isSome then
    { g with
      edges := g.edges.map (fun e =>
        if edgeMatch a b e then (e.1, e.2.1, { e.2.2 with border := border }) else e) }
  else g

/-- MapGraph.is_border. -/
def isBorder (g : MapGraph) (a b : String) : Bool :=
  match findEdge g.edges a b with
  | some attrs => attrs.border
  | none => false

/-- The per-link body of add_or_update_room step 2: skip empty destination
hashes; constructing a stub Room for an unseen neighbor raises TypeError,
because Room.__init__ (ui/widgets/mapper/room.py) requires grid_x and
grid_y arguments that the call Room(dict(hash=dest)) does not pass;
otherwise read the existing flags, derive door_open from the exit-type
code (101 open, -101 closed, anything else preserves), and reconnect. -/
def linkLoop (g : MapGraph) (h : String) (links : List (String × String))
    (exitTypes : List (String × Int)) : Except String MapGraph :=
  match links with
  | [] => .ok g
  | (dirTxt, dest) :: rest =>
    if dest = "" then linkLoop g h rest exitTypes
    else if hasNode g dest then
      let flags := match findEdge g.edges h dest with
        | some a => (a.border, a.doorOpen)
        | none => (false, none)
      let code := alookup exitTypes dirTxt
      let door := if code = some 101 then some true
        else if code = some (-101) then some false
        else flags.2
      linkLoop (connectRooms g h dest flags.1 door) h rest exitTypes
    else .error "TypeError: Room.__init__ missing grid_x and grid_y"

/-- MapGraph.add_or_update_room: bail out on a missing or empty hash;
update the existing Room's attributes from the fresh telemetry (absent
keys preserve prior values); a first-seen room would be built with
Room(info), which raises TypeError since Room.__init__ requires grid_x
and grid_y; then stub-and-connect every directional link. -/
def addOrUpdateRoom (g : MapGraph) (info : RoomInfo)
    (exitTypes : List (String × Int)) : Except String MapGraph :=
  match info.hash with
  | none => .ok g
  | some h =>
    if h = "" then .ok g
    else
      match alookup g.nodes h with
      | some room =>
        let room' : RoomData :=
          { desc := match info.short with
              | some s => some s
              | none => room.desc
            terrain := match info.type with
              | some t => some t
              | none => room.terrain
            links := info.links.getD room.links }
        let g1 : MapGraph :=
          { g with nodes := g.nodes.map (fun p => if p.1 == h then (p.1, room') else p) }
        linkLoop g1 h room'.links exitTypes
      | none => .error "TypeError: Room.__init__ missing grid_x and grid_y"

/-- map_graph._strip_vertical_suffix: lower-case the token, then drop a
trailing "up" (2 characters) or "down" (4 characters).  Spelled over the
character list so that concrete layouts evaluate in the kernel. -/
def stripVerticalSuffix (s : String) : String :=
  let txt := String.mk (s.data.map Char.toLower)
  if ['u', 'p'].isSuffixOf txt.data then String.mk (txt.data.take (txt.data.length - 2))
  else if ['d', 'o', 'w', 'n'].isSuffixOf txt.data then
    String.mk (txt.data.take (txt.data.length - 4))
  else txt

/-- map_graph._TXT_TO_DELTA: grid deltas of the 8 base compass directions. -/
def txtToDelta (base : String) : Option (Int × Int) :=
  if base = "northwest" then some (-1, -1)
  else if base = "north" then some (0, -1)
  else if base = "northeast" then some (1, -1)
  else if base = "west" then some (-1, 0)
  else if base = "east" then some (1, 0)
  else if base = "southwest" then some (-1, 1)
  else if base = "south" then some (0, 1)
  else if base = "southeast" then some (1, 1)
  else none

/-- Python dict assignment coord_owner[target] = neigh: update in place or
append. -/
def coordUpd (l : List ((Int × Int) × String)) (k : Int × Int) (v : String) :
    List ((Int × Int) × String) :=
  if (l.find? (fun p => p.1 == k)).isSome then
    l.map (fun p => if p.1 == k then (k, v) else p)
  else l ++ [(k, v)]

/-- The body of the inner for loop of layout_from_root, for one link of the
dequeued room: skip border edges, unknown or empty neighbors, unrecognized
directions, already-placed neighbors, and targets owned by a different
room (the Python guard is `if owner and owner != neigh`, so a falsy empty
owner does not block); otherwise claim the target and enqueue the
neighbor. -/
def visitOne (g : MapGraph) (cur : String) (cx cy : Int)
    (dirTxt neigh : String)
    (pos : List (String × (Int × Int))) (owner : List ((Int × Int) × String))
    (queue : List String) :
    List (String × (Int × Int)) × List ((Int × Int) × String) × List String :=
  if isBorder g cur neigh then (pos, owner, queue)
  else if neigh = "" ∨ ¬ hasNode g neigh then (pos, owner, queue)
  else
    match txtToDelta (stripVerticalSuffix dirTxt) with
    | none => (pos, owner, queue)
    | some (dx, dy) =>
      if (alookup pos neigh).isSome then (pos, owner, queue)
      else
        let target := (cx + dx, cy + dy)
        match alookup owner target with
        | some o =>
          if o ≠ "" ∧ o ≠ neigh then (pos, owner, queue)
          else
            (pos ++ [(neigh, target)], coordUpd owner target neigh, queue ++ [neigh])
        | none =>
          (pos ++ [(neigh, target)], coordUpd owner target neigh, queue ++ [neigh])

/-- The inner for loop of layout_from_root over all of the dequeued room's
links. -/
def visitLinks (g : MapGraph) (cur : String) (cx cy : Int)
    (links : List (String × String))
    (pos : List (String × (Int × Int))) (owner : List ((Int × Int) × String))
    (queue : List String) :
    List (String × (Int × Int)) × List ((Int × Int) × String) × List String :=
  match links with
  | [] => (pos, owner, queue)
  | (dirTxt, neigh) :: rest =>
    let s := visitOne g cur cx cy dirTxt neigh pos owner queue
    visitLinks g cur cx cy rest s.1 s.2.1 s.2.2

/-- The while loop of layout_from_root; the fuel argument stands for the
loop's intrinsic termination (each dequeued room was placed exactly once,
so iterations never exceed the node count).  A queue entry without a
position or a room cannot arise (everything enqueued was just placed and
is a node); that branch merely continues. -/
def bfsLoop (g : MapGraph) :
    Nat → List String → List (String × (Int × Int)) → List ((Int × Int) × String) →
    List (String × (Int × Int))
  | 0, _, pos, _ => pos
  | _ + 1, [], pos, _ => pos
  | n + 1, cur :: rest, pos, owner =>
    match alookup pos cur, getRoom g cur with
    | some (cx, cy), some room =>
      let s := visitLinks g cur cx cy room.links pos owner rest
      bfsLoop g n s.2.2 s.1 s.2.1
    | _, _ => bfsLoop g n rest pos owner

/-- MapGraph.layout_from_root: empty result for an unknown root, otherwise
a breadth-first flood fill from the root at (0, 0). -/
def layoutFromRoot (g : MapGraph) (root : String) : List (String × (Int × Int)) :=
  if ¬ hasNode g root then []
  else bfsLoop g (g.nodes.length + 1) [root] [(root, (0, 0))] [((0, 0), root)]

/-! ## Concrete fixtures used by witnesses and counterexamples -/

/-- A trigger whose pattern matches every line and whose action returns
normally (a match object and exception carrier are not needed, so both are
Unit). -/
def mkTrig (n : String) (p : Int) : TriggerRule Unit Unit :=
  { priority := p, name := n, regex := ".*", pattern := fun _ => some (),
    action := fun _ => .ok (), enabled := true, gag := false }

/-- A trigger whose action raises. -/
def badTrig : TriggerRule Unit Unit :=
  { priority := 0, name := "bad", regex := ".*", pattern := fun _ => some (),
    action := fun _ => .error (), enabled := true, gag := false }

/-- An alias entry matching every line whose action sends nothing. -/
def mkAlias (p : Int) (tag : String) : AliasEntry Unit :=
  (p, fun _ => some (), fun _ => [tag])

/-- The alias of the chained-expansion scenario: it matches exactly the
command "greet" and its action calls send("greet") again. -/
def selfAlias : List (AliasEntry Unit) :=
  [(0, fun t => if t = "greet" then some () else none, fun _ => ["greet"])]

/-- Insertion of a new element into a sorted list at the last stable
position: after every element related to it, before the first that is
not.  This is where a stable sort places a newly appended element. -/
def pyInsert {α : Type} (r : α → α → Prop) [DecidableRel r] (t : α) :
    List α → List α
  | [] => [t]
  | x :: xs => if r x t then x :: pyInsert r t xs else t :: x :: xs

instance {M E : Type} : IsTotal (TriggerRule M E) trigR :=
  ⟨fun a b => Int.le_total a.priority b.priority⟩

instance {M E : Type} : IsTrans (TriggerRule M E) trigR :=
  ⟨fun _ _ _ hab hbc => le_trans hab hbc⟩

instance {M : Type} : IsTotal (AliasEntry M) aliasR :=
  ⟨fun a b => Int.le_total (-a.1) (-b.1)⟩

instance {M : Type} : IsTrans (AliasEntry M) aliasR :=
  ⟨fun _ _ _ hab hbc => le_trans hab hbc⟩

/-- The alias entries that survive a bulk load: the enabled alias records
whose patterns compile, in record order. -/
def aliasLoadSurvivors {M : Type} (cmp : String → Except Unit (String → Option M))
    (mkAct : ScriptRec → M → List String) : List ScriptRec → List (AliasEntry M)
  | [] => []
  | r :: rest =>
    if r.category == "alias" && r.enabled then
      match cmp (r.pattern.getD "") with
      | .ok p => (r.priority, p, mkAct r) :: aliasLoadSurvivors cmp mkAct rest
      | .error _ => aliasLoadSurvivors cmp mkAct rest
    else aliasLoadSurvivors cmp mkAct rest

/-- toyCmp models re.compile on the three patterns of the counterexample
batch: the pattern "(" is rejected (re.error: missing ), unterminated
subpattern — an invalid Python regular expression), anything else
compiles to a matcher. -/
def toyCmp : String → Except Unit (String → Option Unit) :=
  fun s => if s = "(" then .error () else .ok (fun _ => some ())

/-- Three enabled trigger records; the middle one carries the invalid
pattern "(". -/
def recsBatch : List ScriptRec :=
  [{ name := "t1", category := "trigger", pattern := some "a", interval := none,
     code := "", enabled := true, priority := 1, gag := false },
   { name := "t2", category := "trigger", pattern := some "(", interval := none,
     code := "", enabled := true, priority := 2, gag := false },
   { name := "t3", category := "trigger", pattern := some "b", interval := none,
     code := "", enabled := true, priority := 3, gag := false }]

/-- A trigger whose pattern never matches. -/
def noTrig : TriggerRule Unit Unit :=
  { priority := 9, name := "no", regex := "z", pattern := fun _ => none,
    action := fun _ => .ok (), enabled := true, gag := false }

/-- A gagging trigger whose pattern matches every line. -/
def yesTrig : TriggerRule Unit Unit :=
  { priority := 1, name := "yes", regex := ".*", pattern := fun _ => some (),
    action := fun _ => .ok (), enabled := true, gag := true }

/-- An alias entry whose pattern never matches. -/
def noAlias : AliasEntry Unit := (9, fun _ => none, fun _ => [])

/-- An alias entry matching every line, sending one text. -/
def yesAlias : AliasEntry Unit := (1, fun _ => some (), fun _ => ["go north"])


/-- The graph of the end-to-end mapper scenario: R1 links north to R2 and
northup to R3; both direction tokens strip to the same base direction and
delta (0, -1). -/
def northupGraph : MapGraph :=
  ⟨[("R1", ⟨some "A road", some 7, [("north", "R2"), ("northup", "R3")]⟩),
    ("R2", ⟨none, none, []⟩), ("R3", ⟨none, none, []⟩)],
   [("R1", "R2", ⟨false, none⟩), ("R1", "R3", ⟨false, none⟩)]⟩

/-- Two rooms joined by a single edge marked border. -/
def borderGraph : MapGraph :=
  ⟨[("R", ⟨none, none, [("north", "N")]⟩), ("N", ⟨none, none, [("south", "R")]⟩)],
   [("R", "N", ⟨true, none⟩)]⟩

/-- Rooms R1 and R2 with an existing border edge bearing a closed door,
used to exercise edge re-assertion. -/
def upsertGraph : MapGraph :=
  ⟨[("R1", ⟨some "x", some 1, [("north", "R2")]⟩), ("R2", ⟨none, none, []⟩)],
   [("R1", "R2", ⟨true, some false⟩)]⟩

/-- The flood-fill bookkeeping invariant: positions and coordinate owners
are mutually inverse maps, and every placed key is a node of the graph. -/
def InvPO (g : MapGraph) (pos : List (String × (Int × Int)))
    (owner : List ((Int × Int) × String)) : Prop :=
  (∀ n c, alookup pos n = some c → alookup owner c = some n) ∧
  (∀ c o, alookup owner c = some o → alookup pos o = some c) ∧
  (∀ n c, alookup pos n = some c → hasNode g n = true)

/-! ## C10 — GMCP payload without a space -/

theorem splitFirstSpace_of_no_space (cs : List Char) (h : ' ' ∉ cs) :
    splitFirstSpace cs = (cs, none) := by
  induction cs with
  | nil => rfl
  | cons c rest ih =>
    have hc : ¬ c = ' ' := fun hc => h (hc ▸ List.mem_cons_self c rest)
    have hr : ' ' ∉ rest := fun hm => h (List.mem_cons_of_mem c hm)
    simp [splitFirstSpace, hc, ih hr]

/-- C10: when a completed subnegotiation frame carries the GMCP option
(201) and its payload decodes as UTF-8 text with no space character, feed
invokes the GMCP callback with the whole decoded text as the message key
and none (Python None) as the payload argument. -/
theorem gmcp_no_space_payload_none (p : List Nat) (cs : List Char)
    (hdec : utf8Decode p = some cs) (hsp : ' ' ∉ cs) :
    dispatchFrame (.sb (some 201) p) =
      (some (.sb (some 201) p), [.onGmcp (String.mk cs) none]) := by
  simp [dispatchFrame, gmcpDecode, hdec, splitFirstSpace_of_no_space cs hsp]

theorem gmcp_no_space_payload_none_witness :
    utf8Decode [104, 105] = some ['h', 'i'] ∧ (' ' ∉ ['h', 'i']) ∧
      dispatchFrame (.sb (some 201) [104, 105]) =
        (some (.sb (some 201) [104, 105]),
          [.onGmcp (String.mk ['h', 'i']) none]) :=
  ⟨by decide, by decide,
    gmcp_no_space_payload_none [104, 105] ['h', 'i'] (by decide) (by decide)⟩

/-! ## C4 — chunk-boundary sensitivity of feed -/

theorem feedRaw_append (st : ParserState) (a b : List Nat) :
    feedRaw st (a ++ b) =
      ((feedRaw (feedRaw st a).1 b).1,
        (feedRaw st a).2 ++ (feedRaw (feedRaw st a).1 b).2) := by
  induction a generalizing st with
  | nil => simp [feedRaw]
  | cons x xs ih =>
    simp only [List.cons_append, feedRaw, List.append_eq]
    rw [ih]
    simp [List.append_assoc]

/-- C4 (amended): the byte state machine itself is insensitive to chunk
boundaries — parser state carries across feed calls and the raw frame
streams concatenate — but the merge and newline-normalization passes run
per feed call, so the emitted frames and callbacks are not split
invariant: two consecutive data bytes fed separately arrive as two data
callbacks instead of one, and a CR LF pair split across two feeds is
normalized to two LF bytes instead of one. -/
theorem feed_split_raw_invariant :
    (∀ (st : ParserState) (a b : List Nat),
      feedRaw st (a ++ b) =
        ((feedRaw (feedRaw st a).1 b).1,
          (feedRaw st a).2 ++ (feedRaw (feedRaw st a).1 b).2)) ∧
    (feed initParser [65, 66]).2 = ([.data [65, 66]], [.onData [65, 66]]) ∧
    ((feed initParser [65]).2.1 ++ (feed (feed initParser [65]).1 [66]).2.1
      = [.data [65], .data [66]]) ∧
    (feed initParser [13, 10]).2 = ([.data [10]], [.onData [10]]) ∧
    ((feed initParser [13]).2.1 ++ (feed (feed initParser [13]).1 [10]).2.1
      = [.data [10], .data [10]]) :=
  ⟨feedRaw_append, by decide, by decide, by decide, by decide⟩

/-- C4 is false as stated: feeding the chunk CR LF in one call emits a
single data frame containing one newline, while feeding CR then LF to the
same fresh parser emits two data frames whose payloads concatenate to two
newlines — frames, callbacks and even the normalized text differ. -/
theorem feed_split_counterexample :
    (feed initParser [13, 10]).2.1 = [.data [10]] ∧
    (feed initParser [13]).2.1 ++ (feed (feed initParser [13]).1 [10]).2.1
      = [.data [10], .data [10]] ∧
    ¬ ((feed initParser [13, 10]).2.1 =
        (feed initParser [13]).2.1 ++ (feed (feed initParser [13]).1 [10]).2.1) := by
  refine ⟨by decide, by decide, by decide⟩

/-! ## C5 — alias chained re-expansion is not depth limited -/

/-- C5 (amended): App.send_to_mud applies alias processing to every
re-submitted text with no depth counter, so chained re-expansion is
unbounded: for the self-matching alias, the number of expansions equals
whatever recursion fuel (call stack) is available — there is no cutoff at
depth 5 — and the text is never transmitted. -/
theorem alias_expansion_unbounded (n : Nat) :
    sendToMud selfAlias n "greet" = (n, []) := by
  induction n with
  | zero => rfl
  | succ k ih =>
    show sendToMud selfAlias (k + 1) "greet" = (k + 1, [])
    rw [sendToMud]
    have hp : aliasProcess selfAlias "greet" = some ["greet"] := rfl
    rw [hp]
    simp [ih, Nat.add_comm]

/-- C5 is false as stated: with recursion fuel for seven levels, the
self-matching alias is expanded seven times — in particular a sixth
expansion is performed — and no text is ever returned or transmitted
as-is. -/
theorem alias_expansion_counterexample :
    sendToMud selfAlias 7 "greet" = (7, []) := by decide

/-! ## C6 — exception handling at the dispatch boundaries -/

/-- C6 (amended): only event dispatch guards its actions — App.fire_event
wraps each handler call in try/except and swallows the exception silently
(without logging), still invoking every registered handler — while an
exception raised by a trigger action inside check_triggers propagates to
the caller uncaught (and the call does not return the gag flag). -/
theorem action_exception_boundaries :
    (∀ (A E : Type) (handlers : List (String × (A → Except E Unit))) (arg : A),
      (fireEvent handlers arg).map Prod.fst = handlers.map Prod.fst) ∧
    (∀ (M E : Type) (ts : List (TriggerRule M E)) (text : String)
      (t : TriggerRule M E) (m : M) (e : E),
      firstEnabledMatch ts text = some (t, m) → t.action m = .error e →
      checkTriggers ts text = ([t.name], .error e)) := by
  constructor
  · intro A E handlers arg
    simp [fireEvent]
  · intro M E ts text t m e hfst hact
    simp [checkTriggers, hfst, hact, Except.map]

theorem action_exception_boundaries_witness :
    checkTriggers [badTrig] "x" = (["bad"], .error ()) :=
  action_exception_boundaries.2 Unit Unit [badTrig] "x" badTrig () () rfl rfl

/-- C6 is false as stated: a trigger action that raises during
check_triggers is not caught at the dispatch boundary — the call reports
the error instead of returning the rule's gag flag. -/
theorem action_exception_counterexample :
    (checkTriggers [badTrig] "x").2 = .error () := rfl

/-! ## C2 — first match wins -/

theorem firstEnabledMatch_of_none {M E : Type} (ts : List (TriggerRule M E))
    (text : String) (h : ∀ t ∈ ts, t.enabled = true → t.pattern text = none) :
    firstEnabledMatch ts text = none := by
  induction ts with
  | nil => rfl
  | cons x rest ih =>
    have hrest : ∀ t ∈ rest, t.enabled = true → t.pattern text = none :=
      fun t ht => h t (List.mem_cons_of_mem x ht)
    by_cases hx : x.enabled = true
    · have := h x (List.mem_cons_self x rest) hx
      simp [firstEnabledMatch, hx, this, ih hrest]
    · simp [firstEnabledMatch, hx, ih hrest]

theorem firstEnabledMatch_of_first {M E : Type} (pre : List (TriggerRule M E))
    (t : TriggerRule M E) (post : List (TriggerRule M E)) (text : String) (m : M)
    (hpre : ∀ x ∈ pre, x.enabled = true → x.pattern text = none)
    (ht : t.enabled = true) (hm : t.pattern text = some m) :
    firstEnabledMatch (pre ++ t :: post) text = some (t, m) := by
  induction pre with
  | nil => simp [firstEnabledMatch, ht, hm]
  | cons x rest ih =>
    have hrest : ∀ y ∈ rest, y.enabled = true → y.pattern text = none :=
      fun y hy => hpre y (List.mem_cons_of_mem x hy)
    by_cases hx : x.enabled = true
    · have := hpre x (List.mem_cons_self x rest) hx
      simp [firstEnabledMatch, hx, this, ih hrest]
    · simp [firstEnabledMatch, hx, ih hrest]

theorem aliasFirstMatch_of_none {M : Type} (as : List (AliasEntry M))
    (line : String) (h : ∀ e ∈ as, e.2.1 line = none) :
    aliasFirstMatch as line = none := by
  induction as with
  | nil => rfl
  | cons x rest ih =>
    have hx := h x (List.mem_cons_self x rest)
    have hrest : ∀ e ∈ rest, e.2.1 line = none :=
      fun e he => h e (List.mem_cons_of_mem x he)
    simp [aliasFirstMatch, hx, ih hrest]

theorem aliasFirstMatch_of_first {M : Type} (pre : List (AliasEntry M))
    (e : AliasEntry M) (post : List (AliasEntry M)) (line : String) (m : M)
    (hpre : ∀ x ∈ pre, x.2.1 line = none) (hm : e.2.1 line = some m) :
    aliasFirstMatch (pre ++ e :: post) line = some (e, m) := by
  induction pre with
  | nil => simp [aliasFirstMatch, hm]
  | cons x rest ih =>
    have hx := hpre x (List.mem_cons_self x rest)
    have hrest : ∀ y ∈ rest, y.2.1 line = none :=
      fun y hy => hpre y (List.mem_cons_of_mem x hy)
    simp [aliasFirstMatch, hx, ih hrest]

/-- C2: on a fixed working set, check_triggers and process fire at most one
action — that of the first enabled rule whose pattern matches, later rules
being never tried — returning its gag flag (triggers) or interception
(aliases, modelled by some); when no enabled rule matches, no action runs,
False is returned, and send_to_mud transmits the original text unchanged. -/
theorem first_match_wins :
    (∀ (M E : Type) (ts : List (TriggerRule M E)) (text : String),
      (∀ t ∈ ts, t.enabled = true → t.pattern text = none) →
      checkTriggers ts text = ([], .ok false)) ∧
    (∀ (M E : Type) (pre : List (TriggerRule M E)) (t : TriggerRule M E)
      (post : List (TriggerRule M E)) (text : String) (m : M),
      (∀ x ∈ pre, x.enabled = true → x.pattern text = none) →
      t.enabled = true → t.pattern text = some m → t.action m = .ok () →
      checkTriggers (pre ++ t :: post) text = ([t.name], .ok t.gag)) ∧
    (∀ (M : Type) (as : List (AliasEntry M)) (line : String),
      (∀ e ∈ as, e.2.1 line = none) →
      aliasProcess as line = none ∧
        ∀ n : Nat, sendToMud as (n + 1) line = (0, [line])) ∧
    (∀ (M : Type) (pre : List (AliasEntry M)) (e : AliasEntry M)
      (post : List (AliasEntry M)) (line : String) (m : M),
      (∀ x ∈ pre, x.2.1 line = none) → e.2.1 line = some m →
      aliasProcess (pre ++ e :: post) line = some (e.2.2 m)) := by
  refine ⟨?_, ?_, ?_, ?_⟩
  · intro M E ts text h
    simp [checkTriggers, firstEnabledMatch_of_none ts text h]
  · intro M E pre t post text m hpre ht hm hact
    simp [checkTriggers, firstEnabledMatch_of_first pre t post text m hpre ht hm,
      hact, Except.map]
  · intro M as line h
    have hp : aliasProcess as line = none := by
      simp [aliasProcess, aliasFirstMatch_of_none as line h]
    exact ⟨hp, fun n => by rw [sendToMud, hp]⟩
  · intro M pre e post line m hpre hm
    simp [aliasProcess, aliasFirstMatch_of_first pre e post line m hpre hm]

theorem first_match_wins_witness :
    checkTriggers [noTrig] "x" = ([], .ok false) ∧
    checkTriggers [noTrig, yesTrig, mkTrig "after" 0] "x" = (["yes"], .ok true) ∧
    (aliasProcess [noAlias] "cmd" = none ∧ sendToMud [noAlias] 1 "cmd" = (0, ["cmd"])) ∧
    aliasProcess [noAlias, yesAlias, mkAlias 0 "after"] "cmd" = some ["go north"] := by
  have hno : ∀ t ∈ [noTrig], t.enabled = true → t.pattern "x" = none := by
    intro t ht _
    rw [List.mem_singleton] at ht
    subst ht
    rfl
  have hnoA : ∀ e ∈ [noAlias], e.2.1 "cmd" = none := by
    intro e he
    rw [List.mem_singleton] at he
    subst he
    rfl
  refine ⟨first_match_wins.1 Unit Unit [noTrig] "x" hno, ?_, ?_, ?_⟩
  · have h2 := first_match_wins.2.1 Unit Unit [noTrig] yesTrig [mkTrig "after" 0]
      "x" () hno rfl rfl rfl
    exact h2
  · have h3 := first_match_wins.2.2.1 Unit [noAlias] "cmd" hnoA
    exact ⟨h3.1, h3.2 0⟩
  · exact first_match_wins.2.2.2 Unit [noAlias] yesAlias [mkAlias 0 "after"]
      "cmd" () hnoA rfl

/-! ## C7 — bulk load and pattern-compile failures -/

/-- C7 (amended): during bulk load an alias record whose pattern fails to
compile is skipped silently — the error is swallowed by the loader, not
surfaced — and the remaining alias records are still registered (the final
working set is a permutation of exactly the compile-clean enabled alias
records); a trigger record whose pattern fails to compile instead raises
out of the load, aborting it, so the records after it are never
registered; timer records carry no pattern, their load being a plain fold
that never compiles anything. -/
theorem bulk_load_behavior :
    (∀ (M : Type) (cmp : String → Except Unit (String → Option M))
      (mkAct : ScriptRec → M → List String) (recs : List ScriptRec)
      (acc : List (AliasEntry M)),
      List.Perm (aliasLoadAll cmp mkAct recs acc)
        (acc ++ aliasLoadSurvivors cmp mkAct recs)) ∧
    (∀ (M E : Type) (cmp : String → Except Unit (String → Option M))
      (mkAct : ScriptRec → M → Except E Unit) (recs : List ScriptRec)
      (acc : List (TriggerRule M E)),
      (∃ r ∈ recs, r.category = "trigger" ∧ r.enabled = true ∧
        cmp (r.pattern.getD "") = .error ()) →
      (triggerLoadAll cmp mkAct recs acc).2 = some ()) ∧
    (∀ (recs : List ScriptRec) (acc : List (String × Int)),
      timerLoadAll recs acc =
        (recs.filter (fun r => r.category == "timer" && r.enabled &&
            decide (r.interval.getD 0 > 0))).foldl
          (fun a r => (a.filter (fun p => p.1 != r.name)) ++ [(r.name, r.interval.getD 0)])
          acc) := by
  refine ⟨?_, ?_, ?_⟩
  · intro M cmp mkAct recs
    induction recs with
    | nil => intro acc; simp [aliasLoadAll, aliasLoadSurvivors]
    | cons r rest ih =>
      intro acc
      by_cases hc : (r.category == "alias" && r.enabled) = true
      · rcases hcmp : cmp (r.pattern.getD "") with e | p
        · simpa [aliasLoadAll, aliasLoadSurvivors, hc, hcmp] using ih acc
        · have h1 := ih (registerAlias acc (r.priority, p, mkAct r))
          have h2 : List.Perm
              (registerAlias acc (r.priority, p, mkAct r) ++
                aliasLoadSurvivors cmp mkAct rest)
              ((acc ++ [(r.priority, p, mkAct r)]) ++ aliasLoadSurvivors cmp mkAct rest) :=
            (List.perm_insertionSort aliasR (acc ++ [(r.priority, p, mkAct r)])).append_right _
          have h3 := h1.trans h2
          simpa [aliasLoadAll, aliasLoadSurvivors, hc, hcmp, List.append_assoc]
            using h3
      · simpa [aliasLoadAll, aliasLoadSurvivors, hc] using ih acc
  · intro M E cmp mkAct recs
    induction recs with
    | nil =>
      intro acc h
      obtain ⟨r, hr, -⟩ := h
      exact absurd hr (List.not_mem_nil r)
    | cons r0 rest ih =>
      intro acc h
      obtain ⟨r, hr, h1, h2, h3⟩ := h
      by_cases hc : (r0.category == "trigger" && r0.enabled) = true
      · rcases hcmp : cmp (r0.pattern.getD "") with e | p
        · simp [triggerLoadAll, hc, hcmp]
        · rcases List.mem_cons.mp hr with rfl | hr2
          · rw [h3] at hcmp
            exact absurd hcmp (by simp)
          · have := ih
              (addTrigger acc
                { priority := r0.priority, name := r0.name,
                  regex := r0.pattern.getD "", pattern := p, action := mkAct r0,
                  enabled := r0.enabled, gag := r0.gag })
              ⟨r, hr2, h1, h2, h3⟩
            simpa [triggerLoadAll, hc, hcmp] using this
      · rcases List.mem_cons.mp hr with rfl | hr2
        · exact absurd (by simp [h1, h2]) hc
        · have := ih acc ⟨r, hr2, h1, h2, h3⟩
          simpa [triggerLoadAll, hc] using this
  · intro recs
    induction recs with
    | nil => intro acc; simp [timerLoadAll]
    | cons r rest ih =>
      intro acc
      by_cases hc : (r.category == "timer" && r.enabled) = true
      · by_cases hi : r.interval.getD 0 > 0
        · simp [timerLoadAll, hc, hi, ih]
        · simp [timerLoadAll, hc, hi, ih]
      · simp [timerLoadAll, hc, ih]

/-- C7 is false as stated: loading a trigger batch whose second record has
the invalid pattern "(" aborts with the propagating compile error — the
third record is never compiled or registered, so more than that single
rule is lost and the load does crash. -/
theorem bulk_load_counterexample :
    ((triggerLoadAll toyCmp (fun _ _ => (.ok () : Except Unit Unit)) recsBatch []).1.map
        (fun t => t.name) = ["t1"]) ∧
    (triggerLoadAll toyCmp (fun _ _ => (.ok () : Except Unit Unit)) recsBatch []).2 =
      some () :=
  ⟨rfl, rfl⟩

/-! ## C1 — working-set ordering -/

theorem insertionSort_sorted_append_singleton {α : Type} (r : α → α → Prop)
    [DecidableRel r] (htrans : ∀ a b c, r a b → r b c → r a c)
    (u : List α) (hu : u.Pairwise r) (t : α) :
    (u ++ [t]).insertionSort r = pyInsert r t u := by
  induction u with
  | nil => rfl
  | cons x xs ih =>
    have hx : ∀ y ∈ xs, r x y := (List.pairwise_cons.mp hu).1
    have hxs : xs.Pairwise r := (List.pairwise_cons.mp hu).2
    have hL : ((x :: xs) ++ [t]).insertionSort r
        = (pyInsert r t xs).orderedInsert r x := by
      simp only [List.cons_append, List.insertionSort, List.append_eq, ih hxs]
    rw [hL]
    by_cases hxt : r x t
    · have hstep : (pyInsert r t xs).orderedInsert r x = x :: pyInsert r t xs := by
        cases xs with
        | nil => simp [pyInsert, List.orderedInsert, hxt]
        | cons y ys =>
          have hxy : r x y := hx y (List.mem_cons_self y ys)
          by_cases hyt : r y t
          · simp [pyInsert, hyt, List.orderedInsert, hxy]
          · simp [pyInsert, hyt, List.orderedInsert, hxt]
      rw [hstep]
      simp [pyInsert, hxt]
    · have hfront : pyInsert r t xs = t :: xs := by
        cases xs with
        | nil => rfl
        | cons y ys =>
          have hyt : ¬ r y t :=
            fun hzt => hxt (htrans x y t (hx y (List.mem_cons_self y ys)) hzt)
          simp [pyInsert, hyt]
      have h3 : xs.orderedInsert r x = x :: xs := by
        cases xs with
        | nil => rfl
        | cons y ys => simp [List.orderedInsert, hx y (List.mem_cons_self y ys)]
      rw [hfront]
      simp [List.orderedInsert, hxt, h3, pyInsert]

/-- C1 (amended): after any sequence of registrations the trigger working
set is sorted by priority ASCENDING (lowest first) — not descending — and
stably: a new registration is inserted after every retained rule of
priority less than or equal to its own and before every rule of strictly
greater priority, so equal-priority rules stay in registration order and
check_triggers tries the LOWEST-priority trigger first; the alias working
set is sorted descending with the same stable tie-break, process trying
the highest-priority alias first. -/
theorem registry_order :
    (∀ (M E : Type) (regs : List (TriggerRule M E)),
      (regs.foldl addTrigger []).Pairwise trigR) ∧
    (∀ (M E : Type) (ws : List (TriggerRule M E)) (t : TriggerRule M E),
      ws.Pairwise trigR →
      addTrigger ws t = pyInsert trigR t (ws.filter (fun x => x.name != t.name))) ∧
    (∀ (M : Type) (es : List (AliasEntry M)),
      (es.foldl registerAlias []).Pairwise aliasR) ∧
    (∀ (M : Type) (as : List (AliasEntry M)) (e : AliasEntry M),
      as.Pairwise aliasR → registerAlias as e = pyInsert aliasR e as) := by
  have tsort : ∀ (M E : Type) (regs : List (TriggerRule M E)) ts,
      ts.Pairwise (trigR (M := M) (E := E)) →
      (regs.foldl addTrigger ts).Pairwise trigR := by
    intro M E regs
    induction regs with
    | nil => intro ts h; exact h
    | cons t rest ih =>
      intro ts _
      exact ih (addTrigger ts t) (List.sorted_insertionSort trigR _)
  have asort : ∀ (M : Type) (es : List (AliasEntry M)) as,
      as.Pairwise (aliasR (M := M)) →
      (es.foldl registerAlias as).Pairwise aliasR := by
    intro M es
    induction es with
    | nil => intro as h; exact h
    | cons e rest ih =>
      intro as _
      exact ih (registerAlias as e) (List.sorted_insertionSort aliasR _)
  refine ⟨fun M E regs => tsort M E regs [] (List.Pairwise.nil), ?_, ?_, ?_⟩
  · intro M E ws t hws
    exact insertionSort_sorted_append_singleton trigR
      (fun _ _ _ hab hbc => le_trans hab hbc)
      (ws.filter (fun x => x.name != t.name)) (hws.filter _) t
  · exact fun M es => asort M es [] List.Pairwise.nil
  · intro M as e has
    exact insertionSort_sorted_append_singleton aliasR
      (fun _ _ _ hab hbc => le_trans hab hbc) as has e

/-- C1 is false as stated for the trigger registry: priorities [5, 1, 5, 3]
registered in that order under names a, b, c, d produce the in-memory
order [b, d, a, c] — ascending, not the claimed descending order whose
head is a — and dispatch against text matching all four rules fires b
(priority 1), not a (priority 5). -/
theorem registry_order_counterexample :
    ((([mkTrig "a" 5, mkTrig "b" 1, mkTrig "c" 5, mkTrig "d" 3]).foldl addTrigger
        []).map (fun t => t.name) = ["b", "d", "a", "c"]) ∧
    (checkTriggers
      (([mkTrig "a" 5, mkTrig "b" 1, mkTrig "c" 5, mkTrig "d" 3]).foldl addTrigger [])
      "x").1 = ["b"] :=
  ⟨rfl, rfl⟩

theorem registry_order_witness :
    (addTrigger [mkTrig "b" 1, mkTrig "a" 5] (mkTrig "c" 3) =
      pyInsert trigR (mkTrig "c" 3)
        ([mkTrig "b" 1, mkTrig "a" 5].filter (fun x => x.name != "c"))) ∧
    (registerAlias [mkAlias 5 "p", mkAlias 1 "q"] (mkAlias 3 "r") =
      pyInsert aliasR (mkAlias 3 "r") [mkAlias 5 "p", mkAlias 1 "q"]) :=
  ⟨registry_order.2.1 Unit Unit [mkTrig "b" 1, mkTrig "a" 5] (mkTrig "c" 3)
      (by simp [List.pairwise_cons, trigR, mkTrig]),
    registry_order.2.2.2 Unit [mkAlias 5 "p", mkAlias 1 "q"] (mkAlias 3 "r")
      (by simp [List.pairwise_cons, aliasR, mkAlias])⟩

theorem bulk_load_behavior_witness :
    (triggerLoadAll toyCmp (fun _ _ => (.ok () : Except Unit Unit)) recsBatch []).2 =
      some () :=
  bulk_load_behavior.2.1 Unit Unit toyCmp (fun _ _ => .ok ()) recsBatch []
    ⟨{ name := "t2", category := "trigger", pattern := some "(", interval := none,
       code := "", enabled := true, priority := 2, gag := false },
      by decide, rfl, rfl, rfl⟩

/-! ## Association-list lemmas for the graph proofs -/

theorem alookup_mem {α β : Type} [BEq α] [LawfulBEq α] {l : List (α × β)} {k : α}
    {v : β} (h : alookup l k = some v) : (k, v) ∈ l := by
  simp only [alookup] at h
  rcases Option.map_eq_some'.mp h with ⟨q, hq, hv⟩
  have h1 : q.1 = k := by simpa using List.find?_some hq
  have h2 : q ∈ l := List.mem_of_find?_eq_some hq
  have h3 : q = (k, v) := by
    cases q
    simp_all
  rwa [h3] at h2

theorem alookup_append_left {α β : Type} [BEq α] {l l2 : List (α × β)} {k : α}
    {v : β} (h : alookup l k = some v) : alookup (l ++ l2) k = some v := by
  simp only [alookup] at h ⊢
  rcases Option.map_eq_some'.mp h with ⟨q, hq, hv⟩
  rw [List.find?_append, hq]
  simp [hv]

theorem alookup_append_of_none {α β : Type} [BEq α] {l l2 : List (α × β)} {k : α}
    (h : alookup l k = none) : alookup (l ++ l2) k = alookup l2 k := by
  simp only [alookup] at h ⊢
  rw [List.find?_append, Option.map_eq_none'.mp h]
  simp

theorem alookup_single_self {α β : Type} [BEq α] [LawfulBEq α] (k : α) (v : β) :
    alookup [(k, v)] k = some v := by
  simp [alookup]

theorem alookup_single_ne {α β : Type} [BEq α] [LawfulBEq α] {n k : α} (v : β)
    (h : n ≠ k) : alookup [(k, v)] n = none := by
  simp only [alookup, List.find?_cons, List.find?_nil]
  have : (k == n) = false := beq_false_of_ne (Ne.symm h)
  simp [this]

theorem alookup_append_single_self {α β : Type} [BEq α] [LawfulBEq α]
    {l : List (α × β)} {k : α} (v : β) (h : alookup l k = none) :
    alookup (l ++ [(k, v)]) k = some v := by
  rw [alookup_append_of_none h]
  exact alookup_single_self k v

theorem alookup_append_single_ne {α β : Type} [BEq α] [LawfulBEq α]
    {l : List (α × β)} {n k : α} (v : β) (hne : n ≠ k) :
    alookup (l ++ [(k, v)]) n = alookup l n := by
  rcases hl : alookup l n with _ | c
  · rw [alookup_append_of_none hl]
    exact alookup_single_ne v hne
  · exact alookup_append_left hl

theorem alookup_append_single_cases {α β : Type} [BEq α] [LawfulBEq α]
    {l : List (α × β)} {n k : α} {v c : β}
    (h : alookup (l ++ [(k, v)]) n = some c) :
    alookup l n = some c ∨ (alookup l n = none ∧ n = k ∧ c = v) := by
  rcases hl : alookup l n with _ | c2
  · right
    by_cases hnk : n = k
    · subst hnk
      rw [alookup_append_single_self v hl] at h
      exact ⟨rfl, rfl, (Option.some.inj h).symm⟩
    · rw [alookup_append_single_ne v hnk, hl] at h
      cases h
  · left
    rw [alookup_append_left hl] at h
    exact h

theorem coordUpd_of_none {l : List ((Int × Int) × String)} {k : Int × Int}
    (v : String) (h : alookup l k = none) : coordUpd l k v = l ++ [(k, v)] := by
  simp only [alookup, Option.map_eq_none'] at h
  simp [coordUpd, h]

theorem hasNode_empty_eq_false (g : MapGraph) (hg : ∀ p ∈ g.nodes, p.1 ≠ "") :
    hasNode g "" = false := by
  unfold hasNode
  rcases ho : alookup g.nodes "" with _ | r
  · rfl
  · exact absurd rfl (hg ("", r) (alookup_mem ho))

/-! ## Flood-fill invariants (layout_from_root) -/

theorem visitOne_cases (g : MapGraph) (cur : String) (cx cy : Int)
    (dirTxt neigh : String) (pos : List (String × (Int × Int)))
    (owner : List ((Int × Int) × String)) (queue : List String) :
    visitOne g cur cx cy dirTxt neigh pos owner queue = (pos, owner, queue) ∨
    ∃ dx dy : Int,
      txtToDelta (stripVerticalSuffix dirTxt) = some (dx, dy) ∧
      isBorder g cur neigh = false ∧ neigh ≠ "" ∧ hasNode g neigh = true ∧
      alookup pos neigh = none ∧
      (alookup owner (cx + dx, cy + dy) = none ∨
        ∃ o, alookup owner (cx + dx, cy + dy) = some o ∧ (o = "" ∨ o = neigh)) ∧
      visitOne g cur cx cy dirTxt neigh pos owner queue =
        (pos ++ [(neigh, (cx + dx, cy + dy))],
          coordUpd owner (cx + dx, cy + dy) neigh, queue ++ [neigh]) := by
  unfold visitOne
  cases hB : isBorder g cur neigh with
  | true => exact Or.inl (by simp [hB])
  | false =>
    by_cases hE : neigh = "" ∨ ¬ hasNode g neigh
    · exact Or.inl (by simp only [hB, hE]; simp)
    · have hne : neigh ≠ "" := fun hc => hE (Or.inl hc)
      have hnode : hasNode g neigh = true := by
        by_contra hc
        exact hE (Or.inr hc)
      rcases hD : txtToDelta (stripVerticalSuffix dirTxt) with _ | ⟨dx, dy⟩
      · exact Or.inl (by simp only [hB, hE, hD]; simp)
      · rcases hP : alookup pos neigh with _ | c
        · rcases hO : alookup owner (cx + dx, cy + dy) with _ | o
          · refine Or.inr ⟨dx, dy, rfl, rfl, hne, hnode, rfl, Or.inl hO, ?_⟩
            simp only [hB, hE, hD, hP, hO]
            simp
          · by_cases ho2 : o ≠ "" ∧ o ≠ neigh
            · refine Or.inl ?_
              simp only [hB, hE, hD, hP, hO]
              simp only [if_pos ho2]
              simp
            · refine Or.inr ⟨dx, dy, rfl, rfl, hne, hnode, rfl, Or.inr ⟨o, hO, ?_⟩, ?_⟩
              · rcases not_and_or.mp ho2 with h1 | h2
                · exact Or.inl (not_not.mp h1)
                · exact Or.inr (not_not.mp h2)
              · simp only [hB, hE, hD, hP, hO]
                simp only [if_neg ho2]
                simp
        · refine Or.inl ?_
          simp only [hB, hE, hD, hP]
          simp

theorem place_inv (g : MapGraph) (pos : List (String × (Int × Int)))
    (owner : List ((Int × Int) × String)) (neigh : String) (target : Int × Int)
    (hInv : InvPO g pos owner) (hnode : hasNode g neigh = true)
    (hnp : alookup pos neigh = none) (hot : alookup owner target = none) :
    InvPO g (pos ++ [(neigh, target)]) (owner ++ [(target, neigh)]) := by
  obtain ⟨i1, i2, i3⟩ := hInv
  refine ⟨?_, ?_, ?_⟩
  · intro n c hn
    rcases alookup_append_single_cases hn with hl | ⟨hl, rfl, rfl⟩
    · have ho := i1 n c hl
      have hct : c ≠ target := by
        intro hct
        rw [hct, hot] at ho
        cases ho
      rw [alookup_append_single_ne _ hct]
      exact ho
    · exact alookup_append_single_self _ hot
  · intro c o hc
    rcases alookup_append_single_cases hc with hl | ⟨hl, rfl, rfl⟩
    · exact alookup_append_left (i2 c o hl)
    · exact alookup_append_single_self _ hnp
  · intro n c hn
    rcases alookup_append_single_cases hn with hl | ⟨hl, rfl, rfl⟩
    · exact i3 n c hl
    · exact hnode

theorem visitOne_inv (g : MapGraph) (hg : ∀ p ∈ g.nodes, p.1 ≠ "")
    (cur : String) (cx cy : Int) (dirTxt neigh : String)
    (pos : List (String × (Int × Int))) (owner : List ((Int × Int) × String))
    (queue : List String) (hInv : InvPO g pos owner) :
    InvPO g (visitOne g cur cx cy dirTxt neigh pos owner queue).1
      (visitOne g cur cx cy dirTxt neigh pos owner queue).2.1 ∧
    (∀ n c, alookup pos n = some c →
      alookup (visitOne g cur cx cy dirTxt neigh pos owner queue).1 n = some c) := by
  rcases visitOne_cases g cur cx cy dirTxt neigh pos owner queue with
    heq | ⟨dx, dy, hD, hB, hne, hnode, hP, hO, heq⟩
  · rw [heq]
    exact ⟨hInv, fun n c hh => hh⟩
  · have hot : alookup owner (cx + dx, cy + dy) = none := by
      rcases hO with h | ⟨o, ho, hcase⟩
      · exact h
      · exfalso
        rcases hcase with rfl | rfl
        · have hpos := hInv.2.1 _ _ ho
          have hn := hInv.2.2 _ _ hpos
          rw [hasNode_empty_eq_false g hg] at hn
          cases hn
        · have hpos := hInv.2.1 _ _ ho
          rw [hP] at hpos
          cases hpos
    rw [heq, coordUpd_of_none neigh hot]
    exact ⟨place_inv g pos owner neigh _ hInv hnode hP hot,
      fun n c hh => alookup_append_left hh⟩

theorem visitLinks_inv (g : MapGraph) (hg : ∀ p ∈ g.nodes, p.1 ≠ "")
    (cur : String) (cx cy : Int) :
    ∀ (links : List (String × String)) (pos : List (String × (Int × Int)))
      (owner : List ((Int × Int) × String)) (queue : List String),
      InvPO g pos owner →
      InvPO g (visitLinks g cur cx cy links pos owner queue).1
        (visitLinks g cur cx cy links pos owner queue).2.1 ∧
      (∀ n c, alookup pos n = some c →
        alookup (visitLinks g cur cx cy links pos owner queue).1 n = some c) := by
  intro links
  induction links with
  | nil => exact fun pos owner queue h => ⟨h, fun n c hh => hh⟩
  | cons dn rest ih =>
    intro pos owner queue h
    obtain ⟨d, n⟩ := dn
    have h1 := visitOne_inv g hg cur cx cy d n pos owner queue h
    have h2 := ih (visitOne g cur cx cy d n pos owner queue).1
      (visitOne g cur cx cy d n pos owner queue).2.1
      (visitOne g cur cx cy d n pos owner queue).2.2 h1.1
    refine ⟨?_, ?_⟩
    · simpa [visitLinks] using h2.1
    · intro n2 c hh
      simpa [visitLinks] using h2.2 n2 c (h1.2 n2 c hh)

theorem bfsLoop_inv (g : MapGraph) (hg : ∀ p ∈ g.nodes, p.1 ≠ "") :
    ∀ (fuel : Nat) (queue : List String) (pos : List (String × (Int × Int)))
      (owner : List ((Int × Int) × String)),
      InvPO g pos owner →
      (∃ ow, InvPO g (bfsLoop g fuel queue pos owner) ow) ∧
      (∀ n c, alookup pos n = some c →
        alookup (bfsLoop g fuel queue pos owner) n = some c) := by
  intro fuel
  induction fuel with
  | zero => exact fun queue pos owner h => ⟨⟨owner, h⟩, fun n c hh => hh⟩
  | succ k ih =>
    intro queue pos owner h
    cases queue with
    | nil => exact ⟨⟨owner, h⟩, fun n c hh => hh⟩
    | cons cur rest =>
      rcases hpc : alookup pos cur with _ | cxy
      · have := ih rest pos owner h
        refine ⟨?_, ?_⟩
        · simpa [bfsLoop, hpc] using this.1
        · intro n c hh
          simpa [bfsLoop, hpc] using this.2 n c hh
      · rcases hgr : getRoom g cur with _ | room
        · have := ih rest pos owner h
          refine ⟨?_, ?_⟩
          · simpa [bfsLoop, hpc, hgr] using this.1
          · intro n c hh
            simpa [bfsLoop, hpc, hgr] using this.2 n c hh
        · obtain ⟨cx, cy⟩ := cxy
          have hv := visitLinks_inv g hg cur cx cy room.links pos owner rest h
          have hrec := ih (visitLinks g cur cx cy room.links pos owner rest).2.2
            (visitLinks g cur cx cy room.links pos owner rest).1
            (visitLinks g cur cx cy room.links pos owner rest).2.1 hv.1
          refine ⟨?_, ?_⟩
          · simpa [bfsLoop, hpc, hgr] using hrec.1
          · intro n c hh
            simpa [bfsLoop, hpc, hgr] using hrec.2 n c (hv.2 n c hh)

theorem alookup_single_cases {α β : Type} [BEq α] [LawfulBEq α] {k n : α}
    {v c : β} (h : alookup [(k, v)] n = some c) : n = k ∧ c = v := by
  by_cases hnk : n = k
  · subst hnk
    rw [alookup_single_self] at h
    exact ⟨rfl, (Option.some.inj h).symm⟩
  · rw [alookup_single_ne v hnk] at h
    cases h

/-! ## C3 — layout coordinates are exclusive, root at the origin -/

/-- C3: for every graph whose room ids are genuine (non-empty) and every
root room, layout_from_root places the root at (0, 0) and assigns no
coordinate to two distinct rooms — a conflicting placement is dropped,
first claimant winning in BFS order; in particular the end-to-end
scenario's links north→R2 and northup→R3 collapse to the same (0, -1)
cell, so only R2 (the first claimant) appears in the result. -/
theorem layout_no_overlap :
    (∀ (g : MapGraph) (root : String),
      hasNode g root = true → (∀ p ∈ g.nodes, p.1 ≠ "") →
      alookup (layoutFromRoot g root) root = some (0, 0) ∧
      ∀ n1 n2 c, alookup (layoutFromRoot g root) n1 = some c →
        alookup (layoutFromRoot g root) n2 = some c → n1 = n2) ∧
    layoutFromRoot northupGraph "R1" = [("R1", (0, 0)), ("R2", (0, -1))] := by
  constructor
  · intro g root hroot hg
    have hInit : InvPO g [(root, (0, 0))] [((0, 0), root)] := by
      refine ⟨?_, ?_, ?_⟩
      · intro n c hn
        rcases alookup_single_cases hn with ⟨rfl, rfl⟩
        exact alookup_single_self _ _
      · intro c o hc
        rcases alookup_single_cases hc with ⟨rfl, rfl⟩
        exact alookup_single_self _ _
      · intro n c hn
        rcases alookup_single_cases hn with ⟨rfl, rfl⟩
        exact hroot
    have hb := bfsLoop_inv g hg (g.nodes.length + 1) [root] _ _ hInit
    have hl : layoutFromRoot g root =
        bfsLoop g (g.nodes.length + 1) [root] [(root, (0, 0))] [((0, 0), root)] := by
      simp [layoutFromRoot, hroot]
    constructor
    · rw [hl]
      exact hb.2 root (0, 0) (alookup_single_self _ _)
    · intro n1 n2 c h1 h2
      rw [hl] at h1 h2
      obtain ⟨ow, i1, i2, i3⟩ := hb.1
      have o1 := i1 n1 c h1
      have o2 := i1 n2 c h2
      rw [o1] at o2
      exact Option.some.inj o2
  · decide

theorem layout_no_overlap_witness :
    alookup (layoutFromRoot northupGraph "R1") "R1" = some (0, 0) :=
  (layout_no_overlap.1 northupGraph "R1" (by decide) (by decide)).1

/-! ## C9 — border edges block the flood fill -/

theorem visitOne_notN (g : MapGraph) (N cur : String) (cx cy : Int)
    (dirTxt neigh : String) (pos : List (String × (Int × Int)))
    (owner : List ((Int × Int) × String)) (queue : List String)
    (hb : neigh = N → isBorder g cur N = true)
    (hN : alookup pos N = none) :
    alookup (visitOne g cur cx cy dirTxt neigh pos owner queue).1 N = none := by
  rcases visitOne_cases g cur cx cy dirTxt neigh pos owner queue with
    heq | ⟨dx, dy, hD, hB, hne, hnode, hP, hO, heq⟩
  · rw [heq]
    exact hN
  · have hneN : N ≠ neigh := by
      intro hEq
      have h1 := hb hEq.symm
      rw [← hEq] at hB
      rw [h1] at hB
      cases hB
    rw [heq]
    rw [alookup_append_single_ne _ hneN]
    exact hN

theorem visitLinks_notN (g : MapGraph) (N cur : String) (cx cy : Int) :
    ∀ (links : List (String × String)) (pos : List (String × (Int × Int)))
      (owner : List ((Int × Int) × String)) (queue : List String),
      (∀ q ∈ links, q.2 = N → isBorder g cur N = true) →
      alookup pos N = none →
      alookup (visitLinks g cur cx cy links pos owner queue).1 N = none := by
  intro links
  induction links with
  | nil => exact fun pos owner queue _ hN => hN
  | cons dn rest ih =>
    intro pos owner queue hq hN
    obtain ⟨d, n⟩ := dn
    have h1 := visitOne_notN g N cur cx cy d n pos owner queue
      (fun hn => hq (d, n) (List.mem_cons_self _ _) hn) hN
    simpa [visitLinks] using
      ih _ _ _ (fun q hq2 => hq q (List.mem_cons_of_mem _ hq2)) h1

theorem bfsLoop_notN (g : MapGraph) (N : String)
    (HB : ∀ p ∈ g.nodes, ∀ q ∈ p.2.links, q.2 = N → isBorder g p.1 N = true) :
    ∀ (fuel : Nat) (queue : List String) (pos : List (String × (Int × Int)))
      (owner : List ((Int × Int) × String)),
      alookup pos N = none →
      alookup (bfsLoop g fuel queue pos owner) N = none := by
  intro fuel
  induction fuel with
  | zero => exact fun queue pos owner h => h
  | succ k ih =>
    intro queue pos owner hN
    cases queue with
    | nil => exact hN
    | cons cur rest =>
      rcases hpc : alookup pos cur with _ | cxy
      · simpa [bfsLoop, hpc] using ih rest pos owner hN
      · rcases hgr : getRoom g cur with _ | room
        · simpa [bfsLoop, hpc, hgr] using ih rest pos owner hN
        · obtain ⟨cx, cy⟩ := cxy
          have hcur : (cur, room) ∈ g.nodes := alookup_mem (by simpa [getRoom] using hgr)
          have hlinks : ∀ q ∈ room.links, q.2 = N → isBorder g cur N = true :=
            fun q hq hqN => HB (cur, room) hcur q hq hqN
          have h1 := visitLinks_notN g N cur cx cy room.links pos owner rest hlinks hN
          simpa [bfsLoop, hpc, hgr] using ih _ _ _ h1

/-- C9: an edge every one of whose link occurrences is marked border is
never traversed by layout_from_root, so a room N reachable only through
border links is absent from the layout even though the links exist; and
on the concrete two-room graph, clearing the flag with
set_border(R, N, False) makes a fresh layout place N at R's coordinate
plus north's delta (0, -1). -/
theorem border_blocks_layout :
    (∀ (g : MapGraph) (root N : String),
      hasNode g root = true → N ≠ root →
      (∀ p ∈ g.nodes, ∀ q ∈ p.2.links, q.2 = N → isBorder g p.1 N = true) →
      alookup (layoutFromRoot g root) N = none) ∧
    layoutFromRoot borderGraph "R" = [("R", (0, 0))] ∧
    layoutFromRoot (setBorder borderGraph "R" "N" false) "R" =
      [("R", (0, 0)), ("N", (0, -1))] := by
  refine ⟨?_, by decide, by decide⟩
  intro g root N hroot hNr HB
  have hl : layoutFromRoot g root = bfsLoop g (g.nodes.length + 1) [root]
      [(root, (0, 0))] [((0, 0), root)] := by
    simp [layoutFromRoot, hroot]
  rw [hl]
  exact bfsLoop_notN g N HB _ _ _ _ (alookup_single_ne _ hNr)

theorem border_blocks_layout_witness :
    alookup (layoutFromRoot borderGraph "R") "N" = none :=
  border_blocks_layout.1 borderGraph "R" "N" (by decide) (by decide) (by decide)

/-! ## C8 — edge re-assertion preserves border, door driven by codes -/

theorem edgeMatch_both {h t1 dest : String} {e : String × String × EdgeAttrs}
    (h1 : edgeMatch h t1 e = true) (h2 : edgeMatch h dest e = true) : t1 = dest := by
  simp only [edgeMatch, Bool.or_eq_true, Bool.and_eq_true, beq_iff_eq] at h1 h2
  rcases h1 with ⟨ha, hb⟩ | ⟨ha, hb⟩ <;> rcases h2 with ⟨hc, hd⟩ | ⟨hc, hd⟩ <;>
    simp_all

theorem edgeMatch_updAttrs (a b : String) (e : String × String × EdgeAttrs)
    (w : EdgeAttrs) : edgeMatch a b (e.1, e.2.1, w) = edgeMatch a b e := rfl

theorem find?_map_updAttrs_ne (h t1 dest : String) (hne : t1 ≠ dest)
    (f2 : EdgeAttrs → EdgeAttrs) :
    ∀ es : List (String × String × EdgeAttrs),
      List.find? (edgeMatch h dest)
        (es.map (fun e => if edgeMatch h t1 e then (e.1, e.2.1, f2 e.2.2) else e)) =
      List.find? (edgeMatch h dest) es := by
  intro es
  induction es with
  | nil => rfl
  | cons e rest ih =>
    by_cases hm : edgeMatch h t1 e = true
    · have h2 : edgeMatch h dest e = false := by
        by_contra hc
        exact hne (edgeMatch_both hm (by simpa using hc))
      have h3 : edgeMatch h dest (e.1, e.2.1, f2 e.2.2) = false := by
        rw [edgeMatch_updAttrs]
        exact h2
      simp only [List.map_cons, hm, if_pos]
      rw [List.find?_cons_of_neg _ (by simp [h3]),
        List.find?_cons_of_neg _ (by simp [h2])]
      exact ih
    · simp only [List.map_cons, if_neg hm]
      by_cases h2 : edgeMatch h dest e = true
      · rw [List.find?_cons_of_pos _ h2, List.find?_cons_of_pos _ h2]
      · rw [List.find?_cons_of_neg _ h2, List.find?_cons_of_neg _ h2]
        exact ih

theorem find?_map_updAttrs_same (h dest : String) (f2 : EdgeAttrs → EdgeAttrs) :
    ∀ (es : List (String × String × EdgeAttrs)) (q : String × String × EdgeAttrs),
      List.find? (edgeMatch h dest) es = some q →
      List.find? (edgeMatch h dest)
        (es.map (fun e => if edgeMatch h dest e then (e.1, e.2.1, f2 e.2.2) else e)) =
      some (q.1, q.2.1, f2 q.2.2) := by
  intro es
  induction es with
  | nil => intro q hq; cases hq
  | cons e rest ih =>
    intro q hq
    by_cases hm : edgeMatch h dest e = true
    · rw [List.find?_cons_of_pos _ hm] at hq
      have he : e = q := Option.some.inj hq
      subst he
      simp only [List.map_cons, if_pos hm]
      rw [List.find?_cons_of_pos _ (by rw [edgeMatch_updAttrs]; exact hm)]
    · rw [List.find?_cons_of_neg _ hm] at hq
      simp only [List.map_cons, if_neg hm]
      rw [List.find?_cons_of_neg _ (by rw [edgeMatch_updAttrs]; exact hm)]
      exact ih q hq

theorem findEdge_addEdge_ne (es : List (String × String × EdgeAttrs))
    (h t1 dest : String) (b : Bool) (d : Option Bool) (hne : t1 ≠ dest) :
    findEdge (addEdge es h t1 b d) h dest = findEdge es h dest := by
  unfold addEdge
  split
  · exact congrArg (Option.map (fun e => e.2.2))
      (find?_map_updAttrs_ne h t1 dest hne
        (fun a => ⟨b, match d with | some x => some x | none => a.doorOpen⟩) es)
  · unfold findEdge
    rw [List.find?_append]
    have hsingle : List.find? (edgeMatch h dest) [(h, t1, ⟨b, d⟩)] = none := by
      rw [List.find?_cons_of_neg _ ?_, List.find?_nil]
      simp only [edgeMatch, Bool.or_eq_true, Bool.and_eq_true, beq_iff_eq]
      rintro (⟨-, h2⟩ | ⟨h1, h2⟩)
      · exact hne h2
      · exact hne (h2.trans h1)
    rw [hsingle]
    simp

theorem findEdge_addEdge_same (es : List (String × String × EdgeAttrs))
    (h dest : String) (b : Bool) (d : Option Bool) (A : EdgeAttrs)
    (hedge : findEdge es h dest = some A) :
    findEdge (addEdge es h dest b d) h dest =
      some ⟨b, match d with | some x => some x | none => A.doorOpen⟩ := by
  unfold findEdge at hedge
  rcases Option.map_eq_some'.mp hedge with ⟨q, hq, hA⟩
  unfold addEdge
  rw [if_pos (by rw [hq]; rfl)]
  have hmain := find?_map_updAttrs_same h dest
    (fun a => ⟨b, match d with | some x => some x | none => a.doorOpen⟩) es q hq
  have hgoal := congrArg (Option.map (fun e => e.2.2)) hmain
  simp only [Option.map_some'] at hgoal
  unfold findEdge
  rw [hgoal, hA]

theorem connectRooms_nodes (g : MapGraph) (u v : String) (b : Bool)
    (d : Option Bool) : (connectRooms g u v b d).nodes = g.nodes := by
  unfold connectRooms
  split <;> rfl

theorem hasNode_connectRooms (g : MapGraph) (u v : String) (b : Bool)
    (d : Option Bool) (x : String) :
    hasNode (connectRooms g u v b d) x = hasNode g x := by
  unfold hasNode
  rw [connectRooms_nodes]

theorem findEdge_connectRooms_ne (g : MapGraph) (h t1 dest : String) (b : Bool)
    (d : Option Bool) (hne : t1 ≠ dest) :
    findEdge (connectRooms g h t1 b d).edges h dest = findEdge g.edges h dest := by
  unfold connectRooms
  split
  · exact findEdge_addEdge_ne g.edges h t1 dest b d hne
  · rfl

theorem linkLoop_preserves (et : List (String × Int)) (h dest : String)
    (B : EdgeAttrs) :
    ∀ (links : List (String × String)) (g : MapGraph),
      (∀ p ∈ links, p.2 ≠ dest) →
      (∀ p ∈ links, p.2 = "" ∨ hasNode g p.2 = true) →
      findEdge g.edges h dest = some B →
      ∃ g2, linkLoop g h links et = .ok g2 ∧ findEdge g2.edges h dest = some B ∧
        g2.nodes = g.nodes := by
  intro links
  induction links with
  | nil => exact fun g _ _ hB => ⟨g, rfl, hB, rfl⟩
  | cons dn rest ih =>
    intro g hne hnode hB
    obtain ⟨d0, t0⟩ := dn
    by_cases h0 : t0 = ""
    · have := ih g (fun p hp => hne p (List.mem_cons_of_mem _ hp))
        (fun p hp => hnode p (List.mem_cons_of_mem _ hp)) hB
      simpa [linkLoop, h0] using this
    · have hn0 : hasNode g t0 = true :=
        (hnode (d0, t0) (List.mem_cons_self _ _)).resolve_left h0
      have hne0 : t0 ≠ dest := hne (d0, t0) (List.mem_cons_self _ _)
      set g2 := connectRooms g h t0
        (match findEdge g.edges h t0 with
          | some a => (a.border, a.doorOpen)
          | none => (false, none)).1
        (if alookup et d0 = some 101 then some true
          else if alookup et d0 = some (-101) then some false
          else (match findEdge g.edges h t0 with
            | some a => (a.border, a.doorOpen)
            | none => (false, none)).2) with hg2
      have hB2 : findEdge g2.edges h dest = some B := by
        rw [hg2, findEdge_connectRooms_ne g h t0 dest _ _ hne0]
        exact hB
      have hnodes2 : ∀ p ∈ rest, p.2 = "" ∨ hasNode g2 p.2 = true := by
        intro p hp
        rcases hnode p (List.mem_cons_of_mem _ hp) with hc | hc
        · exact Or.inl hc
        · right
          rw [hg2, hasNode_connectRooms]
          exact hc
      obtain ⟨g3, hrun, hB3, hn3⟩ := ih g2
        (fun p hp => hne p (List.mem_cons_of_mem _ hp)) hnodes2 hB2
      refine ⟨g3, ?_, hB3, ?_⟩
      · simpa [linkLoop, h0, hn0, hg2] using hrun
      · rw [hn3, hg2, connectRooms_nodes]

theorem connectRooms_edges_pos (g : MapGraph) (u v : String) (b : Bool)
    (d : Option Bool) (hu : hasNode g u = true) (hv : hasNode g v = true) :
    (connectRooms g u v b d).edges = addEdge g.edges u v b d := by
  unfold connectRooms
  rw [if_pos (by simp [hu, hv])]

theorem linkLoop_updates (et : List (String × Int)) (h dest dir : String)
    (hdest : dest ≠ "") :
    ∀ (links : List (String × String)) (g : MapGraph) (A : EdgeAttrs),
      links.filter (fun p => p.2 == dest) = [(dir, dest)] →
      (∀ p ∈ links, p.2 = "" ∨ hasNode g p.2 = true) →
      hasNode g h = true →
      findEdge g.edges h dest = some A →
      ∃ g2, linkLoop g h links et = .ok g2 ∧
        findEdge g2.edges h dest = some
          ⟨A.border, if alookup et dir = some 101 then some true
            else if alookup et dir = some (-101) then some false
            else A.doorOpen⟩ ∧
        g2.nodes = g.nodes := by
  intro links
  induction links with
  | nil =>
    intro g A hf
    cases hf
  | cons dn rest ih =>
    intro g A hf hnode hh hedge
    obtain ⟨d0, t0⟩ := dn
    by_cases ht0 : (t0 == dest) = true
    · have ht0' : dest = t0 := by
        have := (beq_iff_eq (a := t0) (b := dest)).mp ht0
        exact this.symm
      subst ht0'
      rw [List.filter_cons_of_pos (by simp)] at hf
      have heq1 : (d0, dest) = (dir, dest) := (List.cons.inj hf).1
      have hrest : rest.filter (fun p => p.2 == dest) = [] := (List.cons.inj hf).2
      have hd0 : d0 = dir := ((Prod.mk.injEq _ _ _ _).mp heq1).1
      subst hd0
      have hn0 : hasNode g dest = true :=
        (hnode (d0, dest) (List.mem_cons_self _ _)).resolve_left hdest
      have hrest2 : ∀ p ∈ rest, p.2 ≠ dest := by
        intro p hp hc
        have := List.filter_eq_nil_iff.mp hrest p hp
        simp [hc] at this
      have hdoorval :
          (match (if alookup et d0 = some 101 then some true
            else if alookup et d0 = some (-101) then some false
            else A.doorOpen) with
            | some x => some x
            | none => A.doorOpen) =
          (if alookup et d0 = some 101 then some true
            else if alookup et d0 = some (-101) then some false
            else A.doorOpen) := by
        by_cases h1 : alookup et d0 = some 101
        · simp [h1]
        · by_cases h2 : alookup et d0 = some (-101)
          · simp [h1, h2]
          · rcases hA2 : A.doorOpen with _ | x <;> simp [h1, h2, hA2]
      set door := if alookup et d0 = some 101 then some true
        else if alookup et d0 = some (-101) then some false
        else A.doorOpen with hdoor
      set g2 := connectRooms g h dest A.border door with hg2
      have hedge2 : findEdge g2.edges h dest = some ⟨A.border, door⟩ := by
        rw [hg2, connectRooms_edges_pos g h dest A.border door hh hn0]
        rw [findEdge_addEdge_same g.edges h dest A.border door A hedge]
        rw [hdoorval]
      have hnode2 : ∀ p ∈ rest, p.2 = "" ∨ hasNode g2 p.2 = true := by
        intro p hp
        rcases hnode p (List.mem_cons_of_mem _ hp) with hc | hc
        · exact Or.inl hc
        · right
          rw [hg2, hasNode_connectRooms]
          exact hc
      obtain ⟨g3, hrun, hB3, hn3⟩ :=
        linkLoop_preserves et h dest ⟨A.border, door⟩ rest g2 hrest2 hnode2 hedge2
      refine ⟨g3, ?_, by rw [hB3], ?_⟩
      · have hred : linkLoop g h ((d0, dest) :: rest) et = linkLoop g2 h rest et := by
          simp only [linkLoop, if_neg hdest, hn0, if_pos, hedge, hg2, hdoor]
        rw [hred]
        exact hrun
      · rw [hn3, hg2, connectRooms_nodes]
    · have ht0' : t0 ≠ dest := by simpa using ht0
      rw [List.filter_cons_of_neg (by simpa using ht0)] at hf
      by_cases h0 : t0 = ""
      · have := ih g A hf (fun p hp => hnode p (List.mem_cons_of_mem _ hp)) hh hedge
        simpa [linkLoop, h0] using this
      · have hn0 : hasNode g t0 = true :=
          (hnode (d0, t0) (List.mem_cons_self _ _)).resolve_left h0
        set g2 := connectRooms g h t0
          (match findEdge g.edges h t0 with
            | some a => (a.border, a.doorOpen)
            | none => (false, none)).1
          (if alookup et d0 = some 101 then some true
            else if alookup et d0 = some (-101) then some false
            else (match findEdge g.edges h t0 with
              | some a => (a.border, a.doorOpen)
              | none => (false, none)).2) with hg2
      -- the edge of interest is untouched by connecting h to a different t0
        have hedge2 : findEdge g2.edges h dest = some A := by
          rw [hg2, findEdge_connectRooms_ne g h t0 dest _ _ ht0']
          exact hedge
        have hnode2 : ∀ p ∈ rest, p.2 = "" ∨ hasNode g2 p.2 = true := by
          intro p hp
          rcases hnode p (List.mem_cons_of_mem _ hp) with hc | hc
          · exact Or.inl hc
          · right
            rw [hg2, hasNode_connectRooms]
            exact hc
        have hh2 : hasNode g2 h = true := by
          rw [hg2, hasNode_connectRooms]
          exact hh
        obtain ⟨g3, hrun, hB3, hn3⟩ := ih g2 A hf hnode2 hh2 hedge2
        refine ⟨g3, ?_, hB3, ?_⟩
        · simpa [linkLoop, h0, hn0, hg2] using hrun
        · rw [hn3, hg2, connectRooms_nodes]

theorem hasNode_update_nodes (g : MapGraph) (h : String) (r2 : RoomData)
    (x : String) :
    hasNode { g with
        nodes := g.nodes.map (fun p => if p.1 == h then (p.1, r2) else p) } x =
      hasNode g x := by
  show (alookup (g.nodes.map (fun p => if p.1 == h then (p.1, r2) else p)) x).isSome
    = (alookup g.nodes x).isSome
  induction g.nodes with
  | nil => rfl
  | cons p rest ih =>
    have hkey : (if p.1 == h then (p.1, r2) else p).1 = p.1 := by
      split <;> rfl
    simp only [List.map_cons, alookup]
    by_cases hp : (p.1 == x) = true
    · have e1 : List.find? (fun q => q.1 == x)
          ((if p.1 == h then (p.1, r2) else p) ::
            List.map (fun q => if q.1 == h then (q.1, r2) else q) rest) =
          some (if p.1 == h then (p.1, r2) else p) :=
        List.find?_cons_of_pos _ (by rw [hkey]; exact hp)
      have e2 : List.find? (fun q => q.1 == x) (p :: rest) = some p :=
        List.find?_cons_of_pos _ hp
      rw [e1, e2]
      rfl
    · have e1 : List.find? (fun q => q.1 == x)
          ((if p.1 == h then (p.1, r2) else p) ::
            List.map (fun q => if q.1 == h then (q.1, r2) else q) rest) =
          List.find? (fun q => q.1 == x)
            (List.map (fun q => if q.1 == h then (q.1, r2) else q) rest) :=
        List.find?_cons_of_neg _ (by rw [hkey]; exact hp)
      have e2 : List.find? (fun q => q.1 == x) (p :: rest) =
          List.find? (fun q => q.1 == x) rest :=
        List.find?_cons_of_neg _ hp
      rw [e1, e2]
      exact ih

/-- C8: an upsert (add_or_update_room) that re-asserts an already-existing
edge leaves its border flag exactly as it was, and changes its door state
only when the exit-type code for that direction is the open sentinel 101
(door becomes open) or the closed sentinel -101 (door becomes closed); any
other code, or the absence of one, preserves the recorded door state.  The
hypotheses pin down the re-assertion scenario: the upserted room exists,
the link to dest occurs exactly once among the fresh links, every link
destination is known (so no stub Room is constructed — Room.__init__ would
raise TypeError), and the edge already exists with attributes A. -/
theorem upsert_preserves_edge_flags
    (g : MapGraph) (info : RoomInfo) (et : List (String × Int))
    (h dest dir : String) (room : RoomData) (A : EdgeAttrs)
    (hh : info.hash = some h) (hne : h ≠ "")
    (hroom : alookup g.nodes h = some room) (hdest : dest ≠ "")
    (hfilter : (info.links.getD room.links).filter (fun p => p.2 == dest)
      = [(dir, dest)])
    (hnodes : ∀ p ∈ info.links.getD room.links, p.2 = "" ∨ hasNode g p.2 = true)
    (hedge : findEdge g.edges h dest = some A) :
    ∃ g2, addOrUpdateRoom g info et = .ok g2 ∧
      findEdge g2.edges h dest = some
        { border := A.border
          doorOpen := if alookup et dir = some 101 then some true
            else if alookup et dir = some (-101) then some false
            else A.doorOpen } := by
  set room2 : RoomData :=
    { desc := match info.short with
        | some s => some s
        | none => room.desc
      terrain := match info.type with
        | some t => some t
        | none => room.terrain
      links := info.links.getD room.links } with hroom2
  set g1 : MapGraph :=
    { g with nodes := g.nodes.map (fun p => if p.1 == h then (p.1, room2) else p) }
    with hg1
  have hred : addOrUpdateRoom g info et = linkLoop g1 h (info.links.getD room.links) et := by
    simp only [addOrUpdateRoom, hh, hroom, if_neg hne]
  have hh1 : hasNode g1 h = true := by
    rw [hg1, hasNode_update_nodes]
    show (alookup g.nodes h).isSome = true
    rw [hroom]
    rfl
  have hnodes1 : ∀ p ∈ info.links.getD room.links, p.2 = "" ∨ hasNode g1 p.2 = true := by
    intro p hp
    rcases hnodes p hp with hc | hc
    · exact Or.inl hc
    · right
      rw [hg1, hasNode_update_nodes]
      exact hc
  have hedge1 : findEdge g1.edges h dest = some A := hedge
  obtain ⟨g2, hrun, hfe, -⟩ := linkLoop_updates et h dest dir hdest
    (info.links.getD room.links) g1 A hfilter hnodes1 hh1 hedge1
  exact ⟨g2, by rw [hred]; exact hrun, hfe⟩

theorem upsert_preserves_edge_flags_witness :
    ∃ g2, addOrUpdateRoom upsertGraph
        ⟨some "R1", some "y", none, some [("north", "R2")]⟩ [("north", 101)] = .ok g2 ∧
      findEdge g2.edges "R1" "R2" = some { border := true, doorOpen := some true } :=
  upsert_preserves_edge_flags upsertGraph
    ⟨some "R1", some "y", none, some [("north", "R2")]⟩ [("north", 101)]
    "R1" "R2" "north" ⟨some "x", some 1, [("north", "R2")]⟩ ⟨true, some false⟩
    rfl (by decide) (by decide) (by decide) (by decide) (by decide) (by decide)

end Skald
